import Mathlib

/-
  Verification of `scripts/validate_mermaid.py`.

  The script scans Markdown files for fenced mermaid code blocks, renders each
  block with the external `mmdc` renderer, and aggregates per-block outcomes
  into a process exit status.  This file shallowly embeds the script:

  * `parse_blocks` embeds the Python `RE.findall` over the pattern
    `^(fence)\s*mermaid\s*\n(.*?)\n(fence)[ \t]*$` (where `(fence)` is three
    backticks) compiled with `re.DOTALL | re.MULTILINE`, as an executable
    matcher over `List Char` specialised to that pattern (leftmost match,
    greedy `\s*` with backtracking, lazy `(.*?)`, non-overlapping
    continuation).
  * `format_cli_error` embeds the diagnostic extraction, including Python's
    `str.splitlines`, `re.search` for the parse-error marker, and `str.strip`.
  * `render_block`, `check_file` and `main_run` embed the orchestration layer:
    subprocess behaviour is abstracted into an oracle (`SpawnResult`) giving,
    per invocation, whether the executable was found, whether spawning raised,
    and otherwise the subprocess runtime, exit code and stderr; `asyncio.gather`
    is embedded as mapping over all tasks (with `return_exceptions=True`
    rendered as `Except` values collected in the result list).
-/

namespace ValidateMermaid

/-- Python's `\s` (equivalently `str.isspace`) character class: the exact set
of code points accepted by `re.match(r"\s", c)` in CPython. -/
def isWS (c : Char) : Bool :=
  c == ' ' || c == '\t' || c == '\n' || c == '\x0b' || c == '\x0c' ||
  c == '\r' || c == '\x1c' || c == '\x1d' || c == '\x1e' || c == '\x1f' ||
  c == '\u0085' || c == ' ' || c == ' ' ||
  (' ' ≤ c && c ≤ ' ') ||
  c == ' ' || c == ' ' || c == ' ' || c == ' ' ||
  c == '　'

/-- The `[ \t]` character class of the closing-fence pattern. -/
def isHS (c : Char) : Bool := c == ' ' || c == '\t'

/-- Three backticks, the fence delimiter of the pattern. -/
def backs : List Char := ['\x60', '\x60', '\x60']

/-- The literal `mermaid` of the pattern. -/
def mermaidT : List Char := ['m', 'e', 'r', 'm', 'a', 'i', 'd']

/-- Does `r` (the text right after a `\n`) begin a valid closing fence,
i.e. match the tail pattern `(fence)[ \t]*$`?  `$` under `re.MULTILINE`
matches before a `\n` or at the end of the input. -/
def closesAt (r : List Char) : Bool :=
  r.take 3 == backs && ((r.drop 3).dropWhile isHS).headD '\n' == '\n'

/-- The continuation position after a closing fence: `findall` resumes right
after the zero-width `$`, i.e. after the `[ \t]*` run. -/
def afterClose (r : List Char) : List Char := (r.drop 3).dropWhile isHS

/-- Scan for the lazy body terminator `\n(fence)[ \t]*$`: the body `(.*?)`
grows one character at a time (DOTALL, so `.` also consumes newlines) until
the earliest closing fence.  Returns the captured body and the continuation. -/
def findClose : List Char → List Char → Option (List Char × List Char)
  | _, [] => none
  | acc, c :: r =>
    if c == '\n' && closesAt r then some (acc.reverse, afterClose r)
    else findClose (c :: acc) r

/-- Attempt the whole pattern at a `^` position (start of a line).  Mirrors
the backtracking order of the Python engine:

* after the opening fence, the greedy `\s*` must end exactly where the
  literal `mermaid` starts;
* the greedy `\s*\n` after `mermaid` tries the newlines of the maximal
  whitespace run `w` from the rightmost to the leftmost: the rightmost
  newline is tried first, its body being scanned by `findClose`;
* if that fails, an earlier newline can still succeed, but only when the
  closing fence sits immediately after the final newline of `w` (any other
  position inside `w` holds whitespace, never a backtick), which requires a
  second newline in `w`; the body is then the whitespace strictly between
  the last two newlines of `w`.

Returns the captured group and the continuation suffix on success. -/
def matchOpen (s : List Char) : Option (List Char × List Char) :=
  if s.take 3 == backs then
    let s4 := (s.drop 3).dropWhile isWS
    if s4.take 7 == mermaidT then
      let s5 := s4.drop 7
      let w := s5.takeWhile isWS
      let tl := s5.dropWhile isWS
      if w.contains '\n' then
        let v := w.reverse
        let v1 := v.takeWhile (fun c => c != '\n')
        match findClose [] (v1.reverse ++ tl) with
        | some br => some br
        | none =>
          let v2 := v.drop (v1.length + 1)
          if v1.isEmpty && closesAt tl && v2.contains '\n' then
            some ((v2.takeWhile (fun c => c != '\n')).reverse, afterClose tl)
          else none
      else none
    else none
  else none

/-- Fuelled form of `re.findall` over the block pattern: scan the text,
attempting the pattern at every `^` position (the start of the input and
every position following a `\n`), emitting each captured group and resuming
after the end of the match (non-overlapping matches). -/
def findAllF : Nat → List Char → Bool → List (List Char)
  | 0, _, _ => []
  | _ + 1, [], _ => []
  | f + 1, c :: rest, ls =>
    if ls then
      match matchOpen (c :: rest) with
      | some (body, r) => body :: findAllF f r false
      | none => findAllF f rest (c == '\n')
    else findAllF f rest (c == '\n')

/-- `re.findall` of the block pattern over the text (the fuel is only a
termination device; `findAllF_fuel` shows any sufficient fuel agrees). -/
def findAll (s : List Char) (ls : Bool) : List (List Char) :=
  findAllF (s.length + 1) s ls

/-- `parse_blocks`: return all mermaid code blocks found in the text
(`RE.findall(text)` in the script). -/
def parse_blocks (text : String) : List String :=
  (findAll text.toList true).map List.asString

/-- Python `str.splitlines` boundary characters (universal newlines); the
two-character boundary CR LF is handled separately in `splitlinesGo`. -/
def isLB (c : Char) : Bool :=
  c == '\n' || c == '\r' || c == '\x0b' || c == '\x0c' ||
  c == '\x1c' || c == '\x1d' || c == '\x1e' || c == '\u0085' ||
  c == ' ' || c == ' '

/-- Worker for `str.splitlines`: `cur` holds the current line reversed; a
boundary at the very end of the input produces no trailing empty line. -/
def splitlinesGo (cur : List Char) : List Char → List (List Char)
  | [] => [cur.reverse]
  | '\r' :: '\n' :: [] => [cur.reverse]
  | '\r' :: '\n' :: d :: r => cur.reverse :: splitlinesGo [] (d :: r)
  | c :: r =>
    if isLB c then
      match r with
      | [] => [cur.reverse]
      | _ => cur.reverse :: splitlinesGo [] r
    else splitlinesGo (c :: cur) r

/-- Python `str.splitlines` (the empty string yields no lines). -/
def splitlines (s : List Char) : List (List Char) :=
  match s with
  | [] => []
  | _ => splitlinesGo [] s

/-- The literal part of the marker pattern `Parse error on line (\d+):`. -/
def markerLit : List Char := "Parse error on line ".toList

/-- The code point ranges of Python's `\d` character class for `str`
patterns: the exact set of code points accepted by `re.match(r"\d", c)` in
CPython (the Unicode decimal digits, category Nd), enumerated as closed
ranges. -/
def ndRanges : List (Nat × Nat) :=
  [(0x30, 0x39), (0x660, 0x669), (0x6f0, 0x6f9), (0x7c0, 0x7c9),
   (0x966, 0x96f), (0x9e6, 0x9ef), (0xa66, 0xa6f), (0xae6, 0xaef),
   (0xb66, 0xb6f), (0xbe6, 0xbef), (0xc66, 0xc6f), (0xce6, 0xcef),
   (0xd66, 0xd6f), (0xde6, 0xdef), (0xe50, 0xe59), (0xed0, 0xed9),
   (0xf20, 0xf29), (0x1040, 0x1049), (0x1090, 0x1099), (0x17e0, 0x17e9),
   (0x1810, 0x1819), (0x1946, 0x194f), (0x19d0, 0x19d9), (0x1a80, 0x1a89),
   (0x1a90, 0x1a99), (0x1b50, 0x1b59), (0x1bb0, 0x1bb9), (0x1c40, 0x1c49),
   (0x1c50, 0x1c59), (0xa620, 0xa629), (0xa8d0, 0xa8d9), (0xa900, 0xa909),
   (0xa9d0, 0xa9d9), (0xa9f0, 0xa9f9), (0xaa50, 0xaa59), (0xabf0, 0xabf9),
   (0xff10, 0xff19), (0x104a0, 0x104a9), (0x10d30, 0x10d39),
   (0x11066, 0x1106f), (0x110f0, 0x110f9), (0x11136, 0x1113f),
   (0x111d0, 0x111d9), (0x112f0, 0x112f9), (0x11450, 0x11459),
   (0x114d0, 0x114d9), (0x11650, 0x11659), (0x116c0, 0x116c9),
   (0x11730, 0x11739), (0x118e0, 0x118e9), (0x11950, 0x11959),
   (0x11c50, 0x11c59), (0x11d50, 0x11d59), (0x11da0, 0x11da9),
   (0x16a60, 0x16a69), (0x16ac0, 0x16ac9), (0x16b50, 0x16b59),
   (0x1d7ce, 0x1d7ff), (0x1e140, 0x1e149), (0x1e2f0, 0x1e2f9),
   (0x1e950, 0x1e959), (0x1fbf0, 0x1fbf9)]

/-- Python's `\d`: membership in one of the Unicode decimal digit ranges. -/
def isND (c : Char) : Bool :=
  ndRanges.any (fun r => r.1 ≤ c.toNat && c.toNat ≤ r.2)

/-- Match the marker pattern at the current position: the literal, then a
maximal non-empty digit run (greedy `\d+`; backtracking into the run cannot
succeed because the following character must be `:`, never a digit), then
`:`.  Returns the captured digit run. -/
def markerAt (s : List Char) : Option (List Char) :=
  if s.take 20 == markerLit then
    let ds := (s.drop 20).takeWhile isND
    if ds.isEmpty then none
    else if ((s.drop 20).drop ds.length).headD ' ' == ':' then some ds
    else none
  else none

/-- `re.search` of the marker pattern in one line: leftmost match. -/
def searchMarker : List Char → Option (List Char)
  | [] => none
  | c :: r =>
    match markerAt (c :: r) with
    | some ds => some ds
    | none => searchMarker r

/-- The f-string
`f"Parse error on line {m.group(1)}:\n{snippet}\n{pointer}\n{detail}"`. -/
def mkParseMsg (n a b d : List Char) : List Char :=
  markerLit ++ n ++ ':' :: '\n' :: (a ++ '\n' :: (b ++ '\n' :: d))

/-- The loop of `format_cli_error`: return at the first line whose marker
matches *and* which has at least two following lines (`i + 2 < len(lines)`);
the `detail` line is the third following line when present, else empty. -/
def formatLines : List (List Char) → Option (List Char)
  | [] => none
  | l :: rest =>
    match searchMarker l with
    | some n =>
      if 2 ≤ rest.length then
        some (mkParseMsg n (rest.headD []) ((rest.drop 1).headD [])
          ((rest.drop 2).headD []))
      else formatLines rest
    | none => formatLines rest

/-- Python `str.strip()` with no argument: remove leading and trailing
whitespace (the same character class as `\s`). -/
def pyStrip (s : List Char) : List Char :=
  ((s.dropWhile isWS).reverse.dropWhile isWS).reverse

/-- `format_cli_error`: extract a concise parse error message from mmdc
output. -/
def format_cli_error (stderr : String) : String :=
  match formatLines (splitlines stderr.toList) with
  | some msg => List.asString msg
  | none => List.asString (pyStrip stderr.toList)

/-- Oracle describing one spawned renderer subprocess: how long
`proc.communicate()` takes, the exit code, and the captured stderr. -/
structure ProcBehavior where
  runtime : ℚ
  returncode : Int
  stderr : String
deriving DecidableEq

/-- Oracle for one `asyncio.create_subprocess_exec` call: the executable may
be absent (`FileNotFoundError`), spawning may raise some other exception
(uncaught by `render_block`), or a process starts with a given behaviour. -/
inductive SpawnResult
  | notFound : SpawnResult
  | raises (e : String) : SpawnResult
  | started (p : ProcBehavior) : SpawnResult
deriving DecidableEq

instance : DecidableEq (Except String Bool) := fun a b =>
  match a, b with
  | .error x, .error y =>
    if h : x = y then isTrue (by rw [h]) else isFalse (by simp [h])
  | .error _, .ok _ => isFalse (by simp)
  | .ok _, .error _ => isFalse (by simp)
  | .ok x, .ok y =>
    if h : x = y then isTrue (by rw [h]) else isFalse (by simp [h])

/-- Observable outcome of one `render_block` invocation: the text written to
the scratch `.mmd` file, the value the coroutine delivers to
`asyncio.gather` (`Except.error` for a propagated exception, otherwise the
returned bool), the messages printed to stderr, and whether the subprocess
was killed after a timeout. -/
structure RenderResult where
  written : String
  value : Except String Bool
  messages : List String
  killed : Bool
deriving DecidableEq

/-- The default of `render_block`'s `timeout: float = 30.0` parameter. -/
def DEFAULT_TIMEOUT : ℚ := 30

/-- `get_mmdc_cmd`: the command to run mermaid-cli.  `shutil.which("mmdc")`
is abstracted into the boolean `mmdcOnPath`. -/
def get_mmdc_cmd (mmd svg cfg_path : String) (mmdcOnPath : Bool) :
    List String :=
  let cli := if mmdcOnPath then "mmdc" else "npx"
  let cmd := if cli == "npx" then
      [cli] ++ ["--yes", "@mermaid-js/mermaid-cli", "mmdc"]
    else [cli]
  cmd ++ ["-p", cfg_path, "-i", mmd, "-o", svg]

/-- The `FileNotFoundError` message of `render_block` (the tooling-missing
diagnostic with its install hint). -/
def toolingMissingMsg (cli : String) : String :=
  s!"Error: \x27{cli}\x27 not found. Node.js with npx and @mermaid-js/mermaid-cli is required."

/-- The `asyncio.TimeoutError` message of `render_block`. -/
def timedOutMsg (path : String) (idx : Nat) : String :=
  s!"{path}: diagram {idx} timed out"

/-- The nonzero-exit message of `render_block`. -/
def failedMsg (path : String) (idx : Nat) : String :=
  s!"{path}: diagram {idx} failed to render"

/-- `render_block`, with subprocess behaviour given by the oracle `env`.
`path` is the document path printed in messages; the scratch directory is
abstracted away except for the content written to the scratch source file
(`written`, always written before spawning).  `asyncio.wait_for` expires
exactly when the runtime exceeds the timeout. -/
def render_block (block : String) (path : String) (idx : Nat)
    (mmdcOnPath : Bool) (env : SpawnResult) (timeout : ℚ) : RenderResult :=
  let mmd := s!"{path}_{idx}.mmd"
  let svg := s!"{path}_{idx}.svg"
  let cli := (get_mmdc_cmd mmd svg "puppeteer-config.json" mmdcOnPath).headD ""
  match env with
  | .notFound =>
    { written := block, value := .ok false,
      messages := [toolingMissingMsg cli], killed := false }
  | .raises e =>
    { written := block, value := .error e, messages := [], killed := false }
  | .started p =>
    if timeout < p.runtime then
      { written := block, value := .ok false,
        messages := [timedOutMsg path idx], killed := true }
    else
      let ok := p.returncode == 0
      { written := block, value := .ok ok,
        messages :=
          if ok then [] else [failedMsg path idx, format_cli_error p.stderr],
        killed := false }

/-- Environment of one document: its path, the outcome of
`path.read_text(encoding="utf-8")`, and the spawn oracle for each 1-based
block index. -/
structure FileEnv where
  path : String
  readText : Except String String
  spawn : Nat → SpawnResult

/-- The test `result is True` used by `check_file` on each gathered value. -/
def isTrueVal : Except String Bool → Bool
  | .ok true => true
  | _ => false

/-- The render tasks of one document, one per parsed block (1-based indices
from `enumerate(blocks, 1)`), all gathered (`return_exceptions=True`). -/
def blockResults (mmdcOnPath : Bool) (fe : FileEnv) (text : String) :
    List RenderResult :=
  (List.enumFrom 1 (parse_blocks text)).map
    (fun ib =>
      render_block ib.2 fe.path ib.1 mmdcOnPath (fe.spawn ib.1)
        DEFAULT_TIMEOUT)

/-- `check_file`: read the document (an exception propagates as
`Except.error`), return `True` immediately when it has no blocks, otherwise
gather all block renders and require every gathered value to be literally
`True`.  The returned pair carries the render results for observation. -/
def check_file (mmdcOnPath : Bool) (fe : FileEnv) :
    Except String (Bool × List RenderResult) :=
  match fe.readText with
  | .error e => .error e
  | .ok text =>
    if (parse_blocks text).isEmpty then .ok (true, [])
    else
      .ok ((blockResults mmdcOnPath fe text).all (fun r => isTrueVal r.value),
        blockResults mmdcOnPath fe text)

/-- The results of all of a document's renders, across the read. -/
def fileBlockResults (mmdcOnPath : Bool) (fe : FileEnv) : List RenderResult :=
  match fe.readText with
  | .ok text => blockResults mmdcOnPath fe text
  | .error _ => []

/-- Is a document valid: all its gathered values literally `True`. -/
def fileValid (mmdcOnPath : Bool) (fe : FileEnv) : Bool :=
  (fileBlockResults mmdcOnPath fe).all (fun r => isTrueVal r.value)

/-- `main`: gather `check_file` over all documents (without
`return_exceptions`, so a raised exception propagates out of the gather) and
reduce to the exit status: 0 when all documents are valid, else 1. -/
def main_run (mmdcOnPath : Bool) (files : List FileEnv) :
    Except String Nat := do
  let rs ← files.mapM (fun fe => (check_file mmdcOnPath fe).map Prod.fst)
  pure (if rs.all id then 0 else 1)

/-- Model of the argparse CLI surface: a single positional argument `paths`
declared with `nargs="+"` and no default.  An empty argument list is a usage
error; dash-prefixed options are not modelled (arguments are taken as plain
paths). -/
def parse_args (args : List String) : Except String (List String) :=
  if args.isEmpty then .error "the following arguments are required: paths"
  else .ok args

/-- Split a character list at every `\n` (lines of a newline-separated
text; the specification model views documents line by line). -/
def splitNl : List Char → List (List Char)
  | [] => [[]]
  | c :: r =>
    if c = '\n' then [] :: splitNl r
    else
      match splitNl r with
      | [] => [[c]]
      | l :: ls => (c :: l) :: ls

/-- Strip leading and trailing spaces and tabs (used to read a fence line's
language tag in the specification model). -/
def stripHS (l : List Char) : List Char :=
  ((l.dropWhile isHS).reverse.dropWhile isHS).reverse

/-- Specification model: is this line a fence line (three backticks at the
start of the line)? -/
def specIsFence (l : List Char) : Bool := l.take 3 == backs

/-- Specification model: does this line open a fenced block tagged with the
diagram language, i.e. a fence whose tag text is exactly `mermaid`? -/
def specOpensMermaid (l : List Char) : Bool :=
  specIsFence l && stripHS (l.drop 3) == mermaidT

/-- Specification model: is this line a closing fence (three backticks
followed only by spaces or tabs)? -/
def specIsClose (l : List Char) : Bool :=
  specIsFence l && (l.drop 3).all isHS

/-- Join lines with `\n` separators. -/
def joinNl : List (List Char) → List Char
  | [] => []
  | [l] => l
  | l :: ls => l ++ '\n' :: joinNl ls

/-- State of the specification model's line scanner: outside any fenced
block, inside a block tagged with some other language (whose content,
including any diagram-language markers, is ignored), or inside a
diagram-language block accumulating its lines (reversed). -/
inductive SpecState
  | outside : SpecState
  | inOther : SpecState
  | inMermaid (acc : List (List Char)) : SpecState

/-- Specification model of block extraction, from the spec's words: "produce
the ordered sequence of substrings that lie strictly between a line opening
a fenced block tagged as the diagram language and the matching closing
fence.  Blocks not tagged as that language are ignored."  A fence tagged
otherwise (or untagged) opens an ignored block that runs to its closing
fence; a block without a matching closing fence yields nothing. -/
def specScan : List (List Char) → SpecState → List (List Char)
  | [], _ => []
  | l :: rest, .outside =>
    if specIsFence l then
      if specOpensMermaid l then specScan rest (.inMermaid [])
      else specScan rest .inOther
    else specScan rest .outside
  | l :: rest, .inOther =>
    if specIsClose l then specScan rest .outside
    else specScan rest .inOther
  | l :: rest, .inMermaid acc =>
    if specIsClose l then joinNl acc.reverse :: specScan rest .outside
    else specScan rest (.inMermaid (l :: acc))

/-- The specification's mermaid blocks of a text (see `specScan`). -/
def specBlocks (text : String) : List String :=
  (specScan (splitNl text.toList) .outside).map List.asString

/-- Newline-terminated rendering of a list of lines (every line, including
the last, is followed by `\n`). -/
def unlinesT (ls : List (List Char)) : List Char :=
  ls.foldr (fun l r => l ++ '\n' :: r) []

/-- A line with no embedded newline that does not begin with a fence. -/
def goodLine (l : List Char) : Bool :=
  !l.contains '\n' && !(l.take 3 == backs)

/-- A block body fit for the round-trip theorem: non-empty, every line a
`goodLine`, and the first line containing at least one non-whitespace
character. -/
def goodBody (b : List (List Char)) : Bool :=
  !b.isEmpty && b.all goodLine && !((b.headD []).dropWhile isWS).isEmpty

/-- One rendered mermaid block: opening fence line, body lines, closing
fence line, then trailing gap lines. -/
def fencedBlockLines (p : List (List Char) × List (List Char)) :
    List (List Char) :=
  (backs ++ mermaidT) :: p.1 ++ [backs] ++ p.2

/-- A subprocess oracle that renders successfully and promptly. -/
def okSpawn : SpawnResult :=
  .started { runtime := 1, returncode := 0, stderr := "" }

/-- A document with one mermaid block whose render succeeds. -/
def okFile : FileEnv :=
  { path := "a.md", readText := .ok "```mermaid\nA\n```\n",
    spawn := fun _ => okSpawn }

/-- A document with one mermaid block whose render exits nonzero. -/
def failFile : FileEnv :=
  { path := "b.md", readText := .ok "```mermaid\nB\n```\n",
    spawn := fun _ => .started
      { runtime := 1, returncode := 1,
        stderr := "Parse error on line 1:\nx\ny\nz" } }

/-- A document with no mermaid block at all. -/
def noBlockFile : FileEnv :=
  { path := "c.md", readText := .ok "# hi\n", spawn := fun _ => .notFound }

/-- A document whose only block's spawn raises a non-FileNotFound error. -/
def exnFile : FileEnv :=
  { path := "e.md", readText := .ok "```mermaid\nE\n```\n",
    spawn := fun _ => .raises "boom" }

/-- A document that cannot be read. -/
def badReadFile : FileEnv :=
  { path := "x.md", readText := .error "FileNotFoundError",
    spawn := fun _ => okSpawn }

/-- A two-block document whose renderer executable is absent. -/
def missingFile : FileEnv :=
  { path := "m.md",
    readText := .ok "```mermaid\nA\n```\n```mermaid\nB\n```\n",
    spawn := fun _ => .notFound }

theorem dropWhile_len_le (p : Char → Bool) (l : List Char) :
    (l.dropWhile p).length ≤ l.length :=
  (List.dropWhile_sublist (l := l) (p := p)).length_le

theorem takeWhile_len_le (p : Char → Bool) (l : List Char) :
    (l.takeWhile p).length ≤ l.length :=
  (List.takeWhile_sublist (l := l) (p := p)).length_le

theorem findClose_length {acc s b r : List Char}
    (h : findClose acc s = some (b, r)) : r.length + 4 ≤ s.length := by
  induction s generalizing acc with
  | nil => simp [findClose] at h
  | cons c cs ih =>
    rw [findClose] at h
    by_cases hc : (c == '\n' && closesAt cs) = true
    · rw [if_pos hc] at h
      have hr : r = afterClose cs := (congrArg Prod.snd (Option.some.inj h)).symm
      have h3 : closesAt cs = true := ((Bool.and_eq_true _ _).mp hc).2
      have h4 : cs.take 3 == backs := ((Bool.and_eq_true _ _).mp h3).1
      have hlen : 3 ≤ cs.length := by
        have htake : cs.take 3 = backs := by simpa using h4
        have : (cs.take 3).length = 3 := by rw [htake]; rfl
        simp [List.length_take] at this
        omega
      have hdw : r.length ≤ cs.length - 3 := by
        calc r.length ≤ (cs.drop 3).length := by
              rw [hr, afterClose]; exact dropWhile_len_le _ _
          _ = cs.length - 3 := by simp
      simp only [List.length_cons]
      omega
    · rw [if_neg hc] at h
      have := ih h
      simp only [List.length_cons]
      omega

theorem matchOpen_length {s b r : List Char}
    (h : matchOpen s = some (b, r)) : r.length < s.length := by
  simp only [matchOpen] at h
  by_cases h1 : (s.take 3 == backs) = true
  · rw [if_pos h1] at h
    have hs3 : 3 ≤ s.length := by
      have htake : s.take 3 = backs := by simpa using h1
      have : (s.take 3).length = 3 := by rw [htake]; rfl
      simp [List.length_take] at this
      omega
    by_cases h2 : (((s.drop 3).dropWhile isWS).take 7 == mermaidT) = true
    · rw [if_pos h2] at h
      set s4 := (s.drop 3).dropWhile isWS with hs4
      have hs4len : s4.length ≤ s.length - 3 := by
        calc s4.length ≤ (s.drop 3).length := dropWhile_len_le _ _
          _ = s.length - 3 := by simp
      have hs47 : 7 ≤ s4.length := by
        have htake : s4.take 7 = mermaidT := by simpa using h2
        have : (s4.take 7).length = 7 := by rw [htake]; rfl
        simp [List.length_take] at this
        omega
      set s5 := s4.drop 7 with hs5
      have hs5len : s5.length = s4.length - 7 := by simp [hs5]
      have hwt : (s5.takeWhile isWS).length + (s5.dropWhile isWS).length
          = s5.length := by
        rw [← List.length_append, List.takeWhile_append_dropWhile]
      by_cases h3 : (s5.takeWhile isWS).contains '\n' = true
      · rw [if_pos h3] at h
        set w := s5.takeWhile isWS with hw
        set tl := s5.dropWhile isWS with htl
        set v1 := w.reverse.takeWhile (fun c => c != '\n') with hv1
        have hv1len : v1.length ≤ w.length := by
          calc v1.length ≤ w.reverse.length := takeWhile_len_le _ _
            _ = w.length := by simp
        cases hfc : findClose [] (v1.reverse ++ tl) with
        | some br =>
          rw [hfc] at h
          obtain ⟨hb, hr⟩ : br.1 = b ∧ br.2 = r := by
            have := Option.some.inj h
            cases br
            exact ⟨congrArg Prod.fst this, congrArg Prod.snd this⟩
          have hlen := findClose_length (b := br.1) (r := br.2)
            (by rw [hfc])
          rw [hr] at hlen
          have : v1.reverse.length + tl.length = v1.length + tl.length := by simp
          simp only [List.length_append] at hlen
          omega
        | none =>
          rw [hfc] at h
          by_cases h4 : (v1.isEmpty && closesAt tl
              && (w.reverse.drop (v1.length + 1)).contains '\n') = true
          · rw [if_pos h4] at h
            have hr : r = afterClose tl :=
              (congrArg Prod.snd (Option.some.inj h)).symm
            have hcl : closesAt tl = true := by
              have := (Bool.and_eq_true _ _).mp h4
              exact ((Bool.and_eq_true _ _).mp this.1).2
            have htl3 : 3 ≤ tl.length := by
              have h5 : tl.take 3 == backs := ((Bool.and_eq_true _ _).mp hcl).1
              have htake : tl.take 3 = backs := by simpa using h5
              have : (tl.take 3).length = 3 := by rw [htake]; rfl
              simp [List.length_take] at this
              omega
            have hrlen : r.length ≤ tl.length - 3 := by
              calc r.length ≤ (tl.drop 3).length := by
                    rw [hr, afterClose]; exact dropWhile_len_le _ _
                _ = tl.length - 3 := by simp
            omega
          · rw [if_neg h4] at h
            exact absurd h (by simp)
      · rw [if_neg h3] at h
        exact absurd h (by simp)
    · rw [if_neg h2] at h
      exact absurd h (by simp)
  · rw [if_neg h1] at h
    exact absurd h (by simp)

theorem findAllF_fuel (f : Nat) : ∀ (g : Nat) (s : List Char) (ls : Bool),
    s.length < f → s.length < g → findAllF f s ls = findAllF g s ls := by
  induction f with
  | zero => exact fun g s ls hf _ => absurd hf (by omega)
  | succ f ih =>
    intro g s ls hf hg
    match g with
    | 0 => exact absurd hg (by omega)
    | g + 1 =>
      match s with
      | [] => rfl
      | c :: rest =>
        simp only [List.length_cons] at hf hg
        by_cases hls : ls = true
        · subst hls
          cases hmo : matchOpen (c :: rest) with
          | some br =>
            obtain ⟨body, r⟩ := br
            have hlen := matchOpen_length hmo
            simp only [List.length_cons] at hlen
            simp only [findAllF, hmo, if_true]
            rw [ih g r false (by omega) (by omega)]
          | none =>
            simp only [findAllF, hmo, if_true]
            rw [ih g rest (c == '\n') (by omega) (by omega)]
        · have hls' : ls = false := by
            cases ls
            · rfl
            · exact absurd rfl hls
          subst hls'
          simp only [findAllF, Bool.false_eq_true, if_false]
          rw [ih g rest (c == '\n') (by omega) (by omega)]

theorem findAll_nil (ls : Bool) : findAll [] ls = [] := rfl

theorem findAll_cons_false (c : Char) (r : List Char) :
    findAll (c :: r) false = findAll r (c == '\n') := rfl

theorem findAll_cons_true_none {c : Char} {r : List Char}
    (h : matchOpen (c :: r) = none) :
    findAll (c :: r) true = findAll r (c == '\n') := by
  simp only [findAll, List.length_cons, findAllF, h, if_true]

theorem findAll_cons_true_some {c : Char} {r b rest : List Char}
    (h : matchOpen (c :: r) = some (b, rest)) :
    findAll (c :: r) true = b :: findAll rest false := by
  have hlen := matchOpen_length h
  simp only [List.length_cons] at hlen
  simp only [findAll, List.length_cons, findAllF, h, if_true]
  congr 1
  exact findAllF_fuel _ _ _ _ (by omega) (by omega)

theorem contains_true_of_mem {l : List Char} {a : Char} (h : a ∈ l) :
    l.contains a = true := List.elem_iff.mpr h

theorem contains_false_of_not_mem {l : List Char} {a : Char} (h : a ∉ l) :
    l.contains a = false := by
  by_cases hc : l.contains a = true
  · exact absurd (List.elem_iff.mp hc) h
  · simpa using hc

theorem dropWhile_head_false {p : Char → Bool} {l : List Char} {d : Char}
    {t : List Char} (h : l.dropWhile p = d :: t) : p d = false := by
  induction l with
  | nil => simp [List.dropWhile] at h
  | cons c cs ih =>
    rw [List.dropWhile_cons] at h
    by_cases hc : p c = true
    · rw [if_pos hc] at h; exact ih h
    · rw [if_neg hc] at h
      cases h
      simpa using hc

theorem takeWhile_append_all {p : Char → Bool} {xs : List Char}
    (ys : List Char) (h : ∀ a ∈ xs, p a = true) :
    (xs ++ ys).takeWhile p = xs ++ ys.takeWhile p := by
  induction xs with
  | nil => simp
  | cons c cs ih =>
    have hc := h c (List.mem_cons_self c cs)
    rw [List.cons_append, List.takeWhile_cons, if_pos hc,
      ih (fun a ha => h a (List.mem_cons_of_mem _ ha)), List.cons_append]

theorem dropWhile_append_all {p : Char → Bool} {xs : List Char}
    (ys : List Char) (h : ∀ a ∈ xs, p a = true) :
    (xs ++ ys).dropWhile p = ys.dropWhile p := by
  induction xs with
  | nil => simp
  | cons c cs ih =>
    have hc := h c (List.mem_cons_self c cs)
    rw [List.cons_append, List.dropWhile_cons, if_pos hc,
      ih (fun a ha => h a (List.mem_cons_of_mem _ ha))]

theorem takeWhile_cons_stop {p : Char → Bool} {c : Char} (xs : List Char)
    (h : p c = false) : (c :: xs).takeWhile p = [] := by
  rw [List.takeWhile_cons, if_neg (by simp [h])]

theorem dropWhile_cons_stop {p : Char → Bool} {c : Char} (xs : List Char)
    (h : p c = false) : (c :: xs).dropWhile p = c :: xs := by
  rw [List.dropWhile_cons, if_neg (by simp [h])]

theorem goodLine_split {l : List Char} (h : goodLine l = true) :
    '\n' ∉ l ∧ l.take 3 ≠ backs := by
  rw [goodLine, Bool.and_eq_true] at h
  constructor
  · intro hm
    have := h.1
    rw [contains_true_of_mem hm] at this
    simpa using this
  · intro ht
    have := h.2
    rw [ht] at this
    simp at this

theorem take3_append_ne {l : List Char} (r : List Char) (h1 : '\n' ∉ l)
    (h2 : l.take 3 ≠ backs) : (l ++ '\n' :: r).take 3 ≠ backs := by
  match l with
  | [] =>
    intro hc
    have : '\n' = '\x60' := by
      have := congrArg (fun x => x.headD ' ') hc
      simpa [backs] using this
    exact absurd this (by decide)
  | [a] =>
    intro hc
    have : '\n' = '\x60' := by
      have := congrArg (fun x => (x.drop 1).headD ' ') hc
      simpa [backs] using this
    exact absurd this (by decide)
  | [a, b] =>
    intro hc
    have : '\n' = '\x60' := by
      have := congrArg (fun x => (x.drop 2).headD ' ') hc
      simpa [backs] using this
    exact absurd this (by decide)
  | a :: b :: c :: t =>
    intro hc
    apply h2
    rw [show (a :: b :: c :: t).take 3 = [a, b, c] from rfl]
    rw [show ((a :: b :: c :: t) ++ '\n' :: r).take 3 = [a, b, c] from rfl] at hc
    exact hc

theorem findClose_consume {l : List Char} (h : '\n' ∉ l) :
    ∀ (acc r : List Char),
      findClose acc (l ++ r) = findClose (l.reverse ++ acc) r := by
  induction l with
  | nil => intro acc r; simp
  | cons c cs ih =>
    intro acc r
    have hc : (c == '\n') = false := by
      simp only [beq_eq_false_iff_ne, ne_eq]
      intro hcc
      exact h (hcc ▸ List.mem_cons_self c cs)
    rw [List.cons_append, findClose, if_neg (by simp [hc]),
      ih (fun hm => h (List.mem_cons_of_mem _ hm)) (c :: acc) r]
    congr 1
    simp

theorem closesAt_fence (R : List Char) :
    closesAt (backs ++ '\n' :: R) = true := by
  rw [closesAt]
  have h1 : (backs ++ '\n' :: R).take 3 = backs := rfl
  have h2 : (backs ++ '\n' :: R).drop 3 = '\n' :: R := rfl
  rw [h1, h2, dropWhile_cons_stop _ (by decide)]
  simp

theorem afterClose_fence (R : List Char) :
    afterClose (backs ++ '\n' :: R) = '\n' :: R := by
  rw [afterClose]
  rw [show (backs ++ '\n' :: R).drop 3 = '\n' :: R from rfl,
    dropWhile_cons_stop _ (by decide)]

theorem findClose_lines {B : List (List Char)}
    (hgood : ∀ l ∈ B, goodLine l = true) (hne : B ≠ []) :
    ∀ (acc R : List Char),
      findClose acc (joinNl B ++ '\n' :: (backs ++ '\n' :: R))
        = some (acc.reverse ++ joinNl B, '\n' :: R) := by
  induction B with
  | nil => exact absurd rfl hne
  | cons l ls ih =>
    intro acc R
    have hl := goodLine_split (hgood l (List.mem_cons_self l ls))
    cases ls with
    | nil =>
      rw [show joinNl [l] = l from rfl, findClose_consume hl.1, findClose,
        if_pos (by simp [closesAt_fence]), afterClose_fence]
      simp
    | cons l2 ls2 =>
      have hjoin : joinNl (l :: l2 :: ls2) = l ++ '\n' :: joinNl (l2 :: ls2) :=
        rfl
      rw [hjoin, List.append_assoc, List.cons_append,
        findClose_consume hl.1]
      have hl2 := goodLine_split (hgood l2
        (List.mem_cons_of_mem _ (List.mem_cons_self l2 ls2)))
      obtain ⟨Z, hZ⟩ : ∃ Z, joinNl (l2 :: ls2) ++ '\n' :: (backs ++ '\n' :: R)
          = l2 ++ '\n' :: Z := by
        cases ls2 with
        | nil => exact ⟨backs ++ '\n' :: R, rfl⟩
        | cons l3 ls3 =>
          refine ⟨joinNl (l3 :: ls3) ++ '\n' :: (backs ++ '\n' :: R), ?_⟩
          rw [show joinNl (l2 :: l3 :: ls3) = l2 ++ '\n' :: joinNl (l3 :: ls3)
            from rfl, List.append_assoc, List.cons_append]
      have hne2 : closesAt (joinNl (l2 :: ls2) ++ '\n' :: (backs ++ '\n' :: R))
          = false := by
        rw [hZ, closesAt]
        have hb : ((l2 ++ '\n' :: Z).take 3 == backs) = false :=
          beq_eq_false_iff_ne.mpr (take3_append_ne Z hl2.1 hl2.2)
        rw [hb, Bool.false_and]
      rw [findClose, if_neg (by simp [hne2]),
        ih (fun a ha => hgood a (List.mem_cons_of_mem _ ha)) (by simp)
          ('\n' :: (l.reverse ++ acc)) R]
      simp [List.append_assoc]

theorem matchOpen_block {B : List (List Char)} (hgood : goodBody B = true)
    (R : List Char) :
    matchOpen ((backs ++ mermaidT) ++ '\n' ::
        (joinNl B ++ '\n' :: (backs ++ '\n' :: R)))
      = some (joinNl B, '\n' :: R) := by
  rw [goodBody, Bool.and_eq_true, Bool.and_eq_true] at hgood
  obtain ⟨⟨hne0, hall0⟩, hhd0⟩ := hgood
  cases B with
  | nil => simp at hne0
  | cons b0 bs =>
    have hall : ∀ l ∈ b0 :: bs, goodLine l = true :=
      fun l hl => List.all_eq_true.mp hall0 l hl
    have hhd : b0.dropWhile isWS ≠ [] := by
      intro hc
      rw [show (b0 :: bs).headD [] = b0 from rfl, hc] at hhd0
      simp at hhd0
    obtain ⟨d, dt, hdd⟩ : ∃ d dt, b0.dropWhile isWS = d :: dt := by
      cases hcase : b0.dropWhile isWS with
      | nil => exact absurd hcase hhd
      | cons d dt => exact ⟨d, dt, rfl⟩
    have hd_ws : isWS d = false := dropWhile_head_false hdd
    have hb0 : b0 = b0.takeWhile isWS ++ (d :: dt) := by
      conv_lhs => rw [← List.takeWhile_append_dropWhile (p := isWS) (l := b0)]
      rw [hdd]
    have hgood0 := goodLine_split (hall b0 (List.mem_cons_self b0 bs))
    have hhs_ws : ∀ a ∈ b0.takeWhile isWS, isWS a = true :=
      fun _ ha => List.mem_takeWhile_imp ha
    have hhs_nl : ∀ a ∈ (b0.takeWhile isWS).reverse, (a != '\n') = true := by
      intro a ha
      rw [List.mem_reverse] at ha
      have hmem : a ∈ b0 := by
        rw [hb0]
        exact List.mem_append_left _ ha
      exact bne_iff_ne.mpr (fun hcc => hgood0.1 (hcc ▸ hmem))
    obtain ⟨T, hT⟩ : ∃ T, joinNl (b0 :: bs) = b0 ++ T := by
      cases bs with
      | nil => exact ⟨[], by simp [joinNl]⟩
      | cons b1 bs1 => exact ⟨'\n' :: joinNl (b1 :: bs1), rfl⟩
    have hS : joinNl (b0 :: bs) ++ '\n' :: (backs ++ '\n' :: R)
        = b0.takeWhile isWS
          ++ (d :: (dt ++ (T ++ '\n' :: (backs ++ '\n' :: R)))) := by
      rw [hT]
      conv_lhs => rw [hb0]
      simp [List.append_assoc]
    have htw : List.takeWhile isWS (joinNl (b0 :: bs)
          ++ '\n' :: (backs ++ '\n' :: R)) = b0.takeWhile isWS := by
      rw [hS, takeWhile_append_all _ hhs_ws, takeWhile_cons_stop _ hd_ws,
        List.append_nil]
    have htl : List.dropWhile isWS (joinNl (b0 :: bs)
          ++ '\n' :: (backs ++ '\n' :: R))
        = d :: (dt ++ (T ++ '\n' :: (backs ++ '\n' :: R))) := by
      rw [hS, dropWhile_append_all _ hhs_ws, dropWhile_cons_stop _ hd_ws]
    have hW : List.takeWhile isWS (List.drop 7 (List.dropWhile isWS
          (List.drop 3 (backs ++ mermaidT ++ '\n' ::
            (joinNl (b0 :: bs) ++ '\n' :: (backs ++ '\n' :: R))))))
        = '\n' :: b0.takeWhile isWS := by
      show List.takeWhile isWS ('\n' ::
        (joinNl (b0 :: bs) ++ '\n' :: (backs ++ '\n' :: R))) = _
      rw [List.takeWhile_cons, if_pos (by decide), htw]
    have hTL : List.dropWhile isWS (List.drop 7 (List.dropWhile isWS
          (List.drop 3 (backs ++ mermaidT ++ '\n' ::
            (joinNl (b0 :: bs) ++ '\n' :: (backs ++ '\n' :: R))))))
        = d :: (dt ++ (T ++ '\n' :: (backs ++ '\n' :: R))) := by
      show List.dropWhile isWS ('\n' ::
        (joinNl (b0 :: bs) ++ '\n' :: (backs ++ '\n' :: R))) = _
      rw [List.dropWhile_cons, if_pos (by decide), htl]
    have hc1 : (List.take 3 (backs ++ mermaidT ++ '\n' ::
          (joinNl (b0 :: bs) ++ '\n' :: (backs ++ '\n' :: R))) == backs)
        = true := rfl
    have hc2 : (List.take 7 (List.dropWhile isWS (List.drop 3
          (backs ++ mermaidT ++ '\n' ::
            (joinNl (b0 :: bs) ++ '\n' :: (backs ++ '\n' :: R)))))
          == mermaidT) = true := rfl
    have hCC : (('\n' :: b0.takeWhile isWS).contains '\n') = true :=
      contains_true_of_mem (List.mem_cons_self _ _)
    simp only [matchOpen]
    rw [if_pos hc1, if_pos hc2, hW, hTL, if_pos hCC]
    have hv1 : List.takeWhile (fun c => c != '\n')
          (('\n' :: b0.takeWhile isWS).reverse)
        = (b0.takeWhile isWS).reverse := by
      rw [List.reverse_cons, takeWhile_append_all _ hhs_nl,
        takeWhile_cons_stop _ (by decide), List.append_nil]
    rw [hv1, List.reverse_reverse, ← hS,
      findClose_lines hall (by simp) [] R]
    simp

theorem matchOpen_none_of_take3 {s : List Char} (h : s.take 3 ≠ backs) :
    matchOpen s = none := by
  have hb : (s.take 3 == backs) = false := beq_eq_false_iff_ne.mpr h
  simp only [matchOpen, hb, Bool.false_eq_true, if_false]

theorem findAll_consume_line {l : List Char} (h : '\n' ∉ l) :
    ∀ r : List Char, findAll (l ++ '\n' :: r) false = findAll r true := by
  induction l with
  | nil =>
    intro r
    rw [List.nil_append, findAll_cons_false,
      show ('\n' == '\n') = true from rfl]
  | cons c cs ih =>
    intro r
    have hc : (c == '\n') = false :=
      beq_eq_false_iff_ne.mpr (fun hcc => h (hcc ▸ List.mem_cons_self c cs))
    rw [List.cons_append, findAll_cons_false, hc,
      ih (fun hm => h (List.mem_cons_of_mem _ hm)) r]

theorem findAll_skip_line {l : List Char} (h : goodLine l = true) :
    ∀ r : List Char, findAll (l ++ '\n' :: r) true = findAll r true := by
  obtain ⟨h1, h2⟩ := goodLine_split h
  intro r
  have hmo : matchOpen (l ++ '\n' :: r) = none :=
    matchOpen_none_of_take3 (take3_append_ne r h1 h2)
  cases l with
  | nil =>
    rw [List.nil_append] at hmo ⊢
    rw [findAll_cons_true_none hmo, show ('\n' == '\n') = true from rfl]
  | cons c cs =>
    rw [List.cons_append] at hmo ⊢
    have hc : (c == '\n') = false :=
      beq_eq_false_iff_ne.mpr (fun hcc => h1 (hcc ▸ List.mem_cons_self c cs))
    rw [findAll_cons_true_none hmo, hc,
      findAll_consume_line (fun hm => h1 (List.mem_cons_of_mem _ hm)) r]

theorem findAll_skip_lines {ls : List (List Char)}
    (h : ∀ l ∈ ls, goodLine l = true) :
    ∀ r : List Char, findAll (unlinesT ls ++ r) true = findAll r true := by
  induction ls with
  | nil => intro r; rw [show unlinesT [] = [] from rfl, List.nil_append]
  | cons l ls ih =>
    intro r
    rw [show unlinesT (l :: ls) = l ++ '\n' :: unlinesT ls from rfl,
      List.append_assoc, List.cons_append,
      findAll_skip_line (h l (List.mem_cons_self l ls)),
      ih (fun a ha => h a (List.mem_cons_of_mem _ ha)) r]

theorem unlinesT_append (xs ys : List (List Char)) :
    unlinesT (xs ++ ys) = unlinesT xs ++ unlinesT ys := by
  induction xs with
  | nil => rw [List.nil_append, show unlinesT [] = [] from rfl, List.nil_append]
  | cons l ls ih =>
    rw [List.cons_append,
      show unlinesT (l :: (ls ++ ys)) = l ++ '\n' :: unlinesT (ls ++ ys)
        from rfl,
      ih, show unlinesT (l :: ls) = l ++ '\n' :: unlinesT ls from rfl]
    simp [List.append_assoc]

theorem unlinesT_ne_nil_eq {B : List (List Char)} (h : B ≠ []) :
    unlinesT B = joinNl B ++ ['\n'] := by
  induction B with
  | nil => exact absurd rfl h
  | cons l ls ih =>
    cases ls with
    | nil => rfl
    | cons l2 ls2 =>
      rw [show unlinesT (l :: l2 :: ls2) = l ++ '\n' :: unlinesT (l2 :: ls2)
          from rfl,
        ih (by simp),
        show joinNl (l :: l2 :: ls2) = l ++ '\n' :: joinNl (l2 :: ls2)
          from rfl]
      simp [List.append_assoc]

theorem findAll_block {B : List (List Char)} (hgood : goodBody B = true)
    (R : List Char) :
    findAll ((backs ++ mermaidT) ++ '\n' ::
        (joinNl B ++ '\n' :: (backs ++ '\n' :: R))) true
      = joinNl B :: findAll R true := by
  have hmo := matchOpen_block hgood R
  rw [show (backs ++ mermaidT) ++ '\n' ::
      (joinNl B ++ '\n' :: (backs ++ '\n' :: R))
      = '\x60' :: (['\x60', '\x60'] ++ mermaidT ++ '\n' ::
        (joinNl B ++ '\n' :: (backs ++ '\n' :: R))) from rfl] at hmo ⊢
  rw [findAll_cons_true_some hmo, findAll_cons_false,
    show ('\n' == '\n') = true from rfl]

theorem findAll_block2 {B : List (List Char)} (hgood : goodBody B = true)
    (R : List Char) :
    findAll (backs ++ (mermaidT ++ '\n' ::
        (joinNl B ++ '\n' :: (backs ++ '\n' :: R)))) true
      = joinNl B :: findAll R true := by
  rw [← List.append_assoc]
  exact findAll_block hgood R

theorem goodBody_ne_nil {B : List (List Char)} (h : goodBody B = true) :
    B ≠ [] := by
  rw [goodBody, Bool.and_eq_true, Bool.and_eq_true] at h
  intro hc
  rw [hc] at h
  simp at h

theorem parse_blocks_fenced_aux :
    ∀ (bl : List (List (List Char) × List (List Char)))
      (pre : List (List Char)),
      (∀ l ∈ pre, goodLine l = true) →
      (∀ p ∈ bl, goodBody p.1 = true ∧ ∀ l ∈ p.2, goodLine l = true) →
      findAll (unlinesT (pre ++ (bl.map fencedBlockLines).flatten)) true
        = bl.map (fun p => joinNl p.1) := by
  intro bl
  induction bl with
  | nil =>
    intro pre hpre _
    rw [List.map_nil, show (List.flatten [] : List (List Char)) = [] from rfl,
      List.append_nil, List.map_nil]
    have := findAll_skip_lines hpre []
    rw [List.append_nil] at this
    rw [this]
    rfl
  | cons p tl ih =>
    intro pre hpre hbl
    obtain ⟨hgB, hgG⟩ := hbl p (List.mem_cons_self p tl)
    have hBne : p.1 ≠ [] := goodBody_ne_nil hgB
    rw [List.map_cons,
      show (fencedBlockLines p :: List.map fencedBlockLines tl).flatten
        = fencedBlockLines p ++ (List.map fencedBlockLines tl).flatten from rfl,
      unlinesT_append, findAll_skip_lines hpre, unlinesT_append,
      show unlinesT (fencedBlockLines p)
        = (backs ++ mermaidT) ++ '\n' :: unlinesT (p.1 ++ [backs] ++ p.2)
        from rfl,
      unlinesT_append, unlinesT_append, unlinesT_ne_nil_eq hBne,
      show unlinesT [backs] = backs ++ ['\n'] from rfl]
    simp only [List.append_assoc, List.singleton_append, List.cons_append, List.nil_append]
    rw [findAll_block2 hgB, List.map_cons]
    congr 1
    rw [← unlinesT_append]
    exact ih p.2 hgG (fun q hq => hbl q (List.mem_cons_of_mem _ hq))

theorem splitNl_line {l : List Char} (h : '\n' ∉ l) :
    ∀ X, splitNl (l ++ '\n' :: X) = l :: splitNl X := by
  induction l with
  | nil =>
    intro X
    rw [List.nil_append]
    simp [splitNl]
  | cons c cs ih =>
    intro X
    have hc : ¬ c = '\n' := fun hcc => h (hcc ▸ List.mem_cons_self c cs)
    rw [List.cons_append]
    simp only [splitNl, if_neg hc,
      ih (fun hm => h (List.mem_cons_of_mem _ hm)) X]

theorem splitNl_unlinesT {ls : List (List Char)}
    (h : ∀ l ∈ ls, '\n' ∉ l) : splitNl (unlinesT ls) = ls ++ [[]] := by
  induction ls with
  | nil => rfl
  | cons l ls ih =>
    rw [show unlinesT (l :: ls) = l ++ '\n' :: unlinesT ls from rfl,
      splitNl_line (h l (List.mem_cons_self l ls)),
      ih (fun a ha => h a (List.mem_cons_of_mem _ ha)), List.cons_append]

theorem specScan_skip_outside {ls : List (List Char)}
    (h : ∀ l ∈ ls, goodLine l = true) :
    ∀ rest, specScan (ls ++ rest) .outside = specScan rest .outside := by
  induction ls with
  | nil => intro rest; rw [List.nil_append]
  | cons l ls ih =>
    intro rest
    have hf : specIsFence l = false :=
      beq_eq_false_iff_ne.mpr (goodLine_split (h l (List.mem_cons_self l ls))).2
    rw [List.cons_append]
    simp only [specScan, hf, Bool.false_eq_true, if_false]
    exact ih (fun a ha => h a (List.mem_cons_of_mem _ ha)) rest

theorem specScan_body {body : List (List Char)}
    (h : ∀ l ∈ body, goodLine l = true) :
    ∀ (acc : List (List Char)) (rest : List (List Char)),
      specScan (body ++ backs :: rest) (.inMermaid acc)
        = joinNl (acc.reverse ++ body) :: specScan rest .outside := by
  induction body with
  | nil =>
    intro acc rest
    rw [List.nil_append]
    simp only [specScan, show specIsClose backs = true from rfl, if_true,
      List.append_nil]
  | cons l body' ih =>
    intro acc rest
    have hf : specIsFence l = false :=
      beq_eq_false_iff_ne.mpr
        (goodLine_split (h l (List.mem_cons_self l body'))).2
    have hcl : specIsClose l = false := by
      rw [specIsClose, hf, Bool.false_and]
    rw [List.cons_append]
    simp only [specScan, hcl, Bool.false_eq_true, if_false]
    rw [ih (fun a ha => h a (List.mem_cons_of_mem _ ha)) (l :: acc) rest]
    congr 2
    rw [List.reverse_cons, List.append_assoc, List.singleton_append]

theorem goodBody_lines {B : List (List Char)} (h : goodBody B = true) :
    ∀ l ∈ B, goodLine l = true := by
  rw [goodBody, Bool.and_eq_true, Bool.and_eq_true] at h
  exact fun l hl => List.all_eq_true.mp h.1.2 l hl

theorem specScan_fenced_aux :
    ∀ (bl : List (List (List Char) × List (List Char)))
      (pre : List (List Char)),
      (∀ l ∈ pre, goodLine l = true) →
      (∀ p ∈ bl, goodBody p.1 = true ∧ ∀ l ∈ p.2, goodLine l = true) →
      specScan ((pre ++ (bl.map fencedBlockLines).flatten) ++ [[]]) .outside
        = bl.map (fun p => joinNl p.1) := by
  intro bl
  induction bl with
  | nil =>
    intro pre hpre _
    rw [List.map_nil, show (List.flatten [] : List (List Char)) = [] from rfl,
      List.append_nil, List.map_nil, specScan_skip_outside hpre]
    rfl
  | cons p tl ih =>
    intro pre hpre hbl
    obtain ⟨hgB, hgG⟩ := hbl p (List.mem_cons_self p tl)
    rw [List.map_cons,
      show (fencedBlockLines p :: List.map fencedBlockLines tl).flatten
        = fencedBlockLines p ++ (List.map fencedBlockLines tl).flatten
        from rfl,
      List.append_assoc pre, specScan_skip_outside hpre,
      List.append_assoc,
      show fencedBlockLines p
        = (backs ++ mermaidT) :: (p.1 ++ [backs] ++ p.2) from rfl,
      List.cons_append]
    simp only [specScan,
      show specIsFence (backs ++ mermaidT) = true from rfl,
      show specOpensMermaid (backs ++ mermaidT) = true from rfl, if_true]
    simp only [List.append_assoc, List.singleton_append, List.cons_append]
    rw [specScan_body (goodBody_lines hgB)]
    simp only [List.reverse_nil, List.nil_append]
    rw [List.map_cons]
    congr 1
    rw [← List.append_assoc]
    exact ih p.2 hgG (fun q hq => hbl q (List.mem_cons_of_mem _ hq))

theorem fenced_no_newline {pre : List (List Char)}
    {bl : List (List (List Char) × List (List Char))}
    (hpre : ∀ l ∈ pre, goodLine l = true)
    (hbl : ∀ p ∈ bl, goodBody p.1 = true ∧ ∀ l ∈ p.2, goodLine l = true) :
    ∀ l ∈ pre ++ (bl.map fencedBlockLines).flatten, '\n' ∉ l := by
  intro l hl
  rw [List.mem_append] at hl
  cases hl with
  | inl h => exact (goodLine_split (hpre l h)).1
  | inr h =>
    obtain ⟨L, hL, hlL⟩ := List.mem_flatten.mp h
    obtain ⟨q, hq, hQ⟩ := List.mem_map.mp hL
    subst hQ
    rw [fencedBlockLines] at hlL
    rcases List.mem_cons.mp hlL with h0 | hrest
    · subst h0; decide
    · obtain ⟨hB, hG⟩ := hbl q hq
      simp only [List.append_eq, List.mem_append, List.mem_singleton] at hrest
      rcases hrest with (hb | hc) | hgp
      · exact (goodLine_split (goodBody_lines hB l hb)).1
      · subst hc; decide
      · exact (goodLine_split (hG l hgp)).1

/-- C4 (amended): on documents of the well-fenced shape — any prefix of
lines that neither contain a newline nor begin with a fence, then for each
block an opening line that is exactly the fence followed by `mermaid`, a
non-empty body whose lines are not fences and whose first line holds a
non-whitespace character, a closing line that is exactly the fence, and gap
lines that are not fences, everything newline-terminated — `parse_blocks`
returns exactly the ordered bodies (lines joined by newlines), and this
agrees with the specification's line-based reading (`specBlocks`): the
number of extracted blocks equals the number of mermaid-tagged fence pairs.
(In general the claim fails: see the counterexample, where an opening
marker inside a differently-tagged fenced block is still matched.) -/
theorem parse_blocks_wellFenced_spec (pre : List (List Char))
    (bl : List (List (List Char) × List (List Char)))
    (hpre : ∀ l ∈ pre, goodLine l = true)
    (hbl : ∀ p ∈ bl, goodBody p.1 = true ∧ ∀ l ∈ p.2, goodLine l = true) :
    parse_blocks (List.asString
        (unlinesT (pre ++ (bl.map fencedBlockLines).flatten)))
      = bl.map (fun p => List.asString (joinNl p.1))
    ∧ specBlocks (List.asString
        (unlinesT (pre ++ (bl.map fencedBlockLines).flatten)))
      = bl.map (fun p => List.asString (joinNl p.1)) := by
  constructor
  · rw [parse_blocks,
      show (List.asString
          (unlinesT (pre ++ (bl.map fencedBlockLines).flatten))).toList
        = unlinesT (pre ++ (bl.map fencedBlockLines).flatten) from rfl,
      parse_blocks_fenced_aux bl pre hpre hbl, List.map_map]
    rfl
  · rw [specBlocks,
      show (List.asString
          (unlinesT (pre ++ (bl.map fencedBlockLines).flatten))).toList
        = unlinesT (pre ++ (bl.map fencedBlockLines).flatten) from rfl,
      splitNl_unlinesT (fenced_no_newline hpre hbl),
      specScan_fenced_aux bl pre hpre hbl, List.map_map]
    rfl

/-- Witness for the amended C4 theorem: a concrete document with a heading,
two mermaid blocks and a gap line, instantiating every hypothesis. -/
theorem parse_blocks_wellFenced_spec_witness :
    parse_blocks (List.asString
        (unlinesT (["# t".toList] ++
          (([(["graph TD".toList], ["gap".toList]),
             (["B x".toList], ([] : List (List Char)))].map
            fencedBlockLines)).flatten)))
      = [(["graph TD".toList], ["gap".toList]),
         (["B x".toList], ([] : List (List Char)))].map
          (fun p => List.asString (joinNl p.1)) :=
  (parse_blocks_wellFenced_spec ["# t".toList]
    [(["graph TD".toList], ["gap".toList]),
     (["B x".toList], ([] : List (List Char)))]
    (by decide) (by decide)).1

/-- C4 counterexample: in the document
` ```python / ```mermaid / A / ``` / ``` ` the only fenced blocks by the
specification's reading are a python-tagged one (whose content includes the
mermaid marker line) and a trailing unclosed untagged one — zero
mermaid-tagged fence pairs — yet `parse_blocks` extracts one block, `A`:
markers inside differently-tagged fences are not ignored, and the count can
exceed the number of mermaid-tagged fence pairs. -/
theorem parse_blocks_otherFence_counterexample :
    parse_blocks "```python\n```mermaid\nA\n```\n```\n" = ["A"]
    ∧ specBlocks "```python\n```mermaid\nA\n```\n```\n" = [] :=
  ⟨rfl, rfl⟩

theorem formatLines_spec : ∀ ls : List (List Char),
    (∃ pre l a b post n, ls = pre ++ l :: a :: b :: post
      ∧ (∀ p ∈ pre, searchMarker p = none)
      ∧ searchMarker l = some n
      ∧ formatLines ls = some (mkParseMsg n a b (post.headD [])))
    ∨ ((∀ pre l a b post, ls = pre ++ l :: a :: b :: post →
          searchMarker l = none)
      ∧ formatLines ls = none) := by
  intro ls
  induction ls with
  | nil =>
    right
    refine ⟨?_, rfl⟩
    intro pre l a b post h
    exact absurd h (by simp)
  | cons l0 rest ih =>
    cases hsm : searchMarker l0 with
    | some n =>
      by_cases hlen : 2 ≤ rest.length
      · left
        obtain ⟨a, b, post, hrest⟩ : ∃ a b post, rest = a :: b :: post := by
          cases rest with
          | nil => simp at hlen
          | cons a rest1 =>
            cases rest1 with
            | nil => simp at hlen
            | cons b post => exact ⟨a, b, post, rfl⟩
        subst hrest
        refine ⟨[], l0, a, b, post, n, rfl, by simp, hsm, ?_⟩
        simp only [formatLines, hsm]
        rw [if_pos (by simp)]
        rfl
      · right
        constructor
        · intro pre l a b post hdec
          cases pre with
          | nil =>
            exfalso
            apply hlen
            have : rest = a :: b :: post := by
              simpa using congrArg List.tail hdec
            rw [this]
            simp
          | cons p pre' =>
            rcases ih with ⟨pre2, l2, a2, b2, post2, n2, hdec2, -, -, -⟩ |
              ⟨hno, -⟩
            · exfalso
              apply hlen
              rw [hdec2]
              simp
              omega
            · have hrest : rest = pre' ++ l :: a :: b :: post := by
                simpa using congrArg List.tail hdec
              exact hno pre' l a b post hrest
        · rcases ih with ⟨pre2, l2, a2, b2, post2, n2, hdec2, -, -, -⟩ |
            ⟨-, hnone⟩
          · exfalso
            apply hlen
            rw [hdec2]
            simp
            omega
          · simp only [formatLines, hsm]
            rw [if_neg hlen]
            exact hnone
    | none =>
      rcases ih with ⟨pre, l, a, b, post, n, hdec, hpre, hsm2, hfmt⟩ |
        ⟨hno, hnone⟩
      · left
        refine ⟨l0 :: pre, l, a, b, post, n, by rw [List.cons_append, hdec],
          ?_, hsm2, ?_⟩
        · intro p hp
          rcases List.mem_cons.mp hp with h0 | hmem
          · rw [h0]; exact hsm
          · exact hpre p hmem
        · simp only [formatLines, hsm]
          exact hfmt
      · right
        refine ⟨?_, by simp only [formatLines, hsm]; exact hnone⟩
        intro pre l a b post hdec
        cases pre with
        | nil =>
          have : l0 = l := by simpa using congrArg (fun x => x.headD []) hdec
          rw [← this]
          exact hsm
        | cons p pre' =>
          have hrest : rest = pre' ++ l :: a :: b :: post := by
            simpa using congrArg List.tail hdec
          exact hno pre' l a b post hrest

/-- C1 (amended): for every error stream, if some line matches the marker
`Parse error on line N:` and at least two lines follow it, then at the
first such line `format_cli_error` returns the reconstructed marker line
`Parse error on line N:` (any surrounding text of the marker line is
dropped) followed by the next two lines and then the third following line
or the empty string, joined by newlines (so the output always spans four
lines, the last possibly empty); otherwise — no marker at all, or markers
only on the last two lines — it returns the whole error stream stripped of
leading and trailing whitespace. -/
theorem format_cli_error_spec (s : String) :
    (∃ pre l a b post n,
        splitlines s.toList = pre ++ l :: a :: b :: post
        ∧ (∀ p ∈ pre, searchMarker p = none)
        ∧ searchMarker l = some n
        ∧ format_cli_error s = List.asString (mkParseMsg n a b (post.headD [])))
    ∨ ((∀ pre l a b post,
          splitlines s.toList = pre ++ l :: a :: b :: post →
            searchMarker l = none)
        ∧ format_cli_error s = List.asString (pyStrip s.toList)) := by
  rcases formatLines_spec (splitlines s.toList) with
    ⟨pre, l, a, b, post, n, hdec, hpre, hsm, hfmt⟩ | ⟨hno, hnone⟩
  · left
    exact ⟨pre, l, a, b, post, n, hdec, hpre, hsm,
      by rw [format_cli_error, hfmt]⟩
  · right
    exact ⟨hno, by rw [format_cli_error, hnone]⟩

/-- C1 counterexample: for the error stream
`"ab Parse error on line 7:" / "A" / "B" / "C"` the marker-bearing line is
`"ab Parse error on line 7:"`, but the diagnostic returned is not that line
plus its following lines verbatim: the code rebuilds the marker text and
drops the `"ab "` prefix of the marker line. -/
theorem format_cli_error_counterexample :
    format_cli_error "ab Parse error on line 7:\nA\nB\nC"
      = "Parse error on line 7:\nA\nB\nC"
    ∧ format_cli_error "ab Parse error on line 7:\nA\nB\nC"
      ≠ "ab Parse error on line 7:\nA\nB\nC" := by
  refine ⟨rfl, ?_⟩
  decide

theorem isTrueVal_iff {v : Except String Bool} :
    isTrueVal v = true ↔ v = .ok true := by
  cases v with
  | error e => simp [isTrueVal]
  | ok b => cases b <;> simp [isTrueVal]

theorem render_block_written (block path : String) (idx : Nat) (m : Bool)
    (env : SpawnResult) (t : ℚ) :
    (render_block block path idx m env t).written = block := by
  cases env with
  | notFound => rfl
  | raises e => rfl
  | started p =>
    simp only [render_block]
    by_cases ht : t < p.runtime
    · rw [if_pos ht]
    · rw [if_neg ht]

theorem check_file_read_ok {m : Bool} {fe : FileEnv} {text : String}
    (h : fe.readText = .ok text) :
    check_file m fe = .ok (fileValid m fe, fileBlockResults m fe) := by
  by_cases hb : (parse_blocks text).isEmpty
  · have hbl : parse_blocks text = [] := List.isEmpty_iff.mp hb
    simp only [check_file, h, hb, if_true, fileValid, fileBlockResults,
      blockResults, hbl]
    rfl
  · simp only [check_file, h, hb, if_false, fileValid, fileBlockResults,
      blockResults, Bool.false_eq_true]

theorem mapM_check_ok {m : Bool} :
    ∀ (files : List FileEnv),
      (∀ fe ∈ files, ∃ t, fe.readText = Except.ok t) →
      files.mapM (fun fe => (check_file m fe).map Prod.fst)
        = Except.ok (files.map (fun fe => fileValid m fe)) := by
  intro files
  induction files with
  | nil => intro _; rfl
  | cons fe fs ih =>
    intro h
    obtain ⟨t, ht⟩ := h fe (List.mem_cons_self fe fs)
    rw [List.mapM_cons, check_file_read_ok ht,
      ih (fun g hg => h g (List.mem_cons_of_mem _ hg))]
    rfl

theorem all_map_id {α : Type} (l : List α) (f : α → Bool) :
    (l.map f).all id = l.all f := by
  induction l with
  | nil => rfl
  | cons x xs ih => simp [ih]

theorem main_run_eq {m : Bool} {files : List FileEnv}
    (h : ∀ fe ∈ files, ∃ t, fe.readText = Except.ok t) :
    main_run m files
      = .ok (if files.all (fun fe => fileValid m fe) then 0 else 1) := by
  rw [main_run, mapM_check_ok files h]
  show Except.ok (if (files.map (fun fe => fileValid m fe)).all id then
    (0 : Nat) else 1) = _
  rw [all_map_id]

/-- C5: over any run whose documents are all readable, the exit status is
computed by logical AND aggregation — a document is valid exactly when all
its gathered block values are literally `True`, and the run exits 0 exactly
when every block of every document succeeded, else 1 — and every block of
every document contributes a render result (one per parsed block, no
fail-fast). -/
theorem main_run_aggregates (m : Bool) (files : List FileEnv)
    (h : ∀ fe ∈ files, ∃ t, fe.readText = Except.ok t) :
    (main_run m files
        = .ok (if files.all (fun fe => fileValid m fe) then 0 else 1))
    ∧ (main_run m files = .ok 0 ↔
        ∀ fe ∈ files, ∀ r ∈ fileBlockResults m fe, r.value = .ok true)
    ∧ (∀ fe ∈ files, ∀ t, fe.readText = .ok t →
        (fileBlockResults m fe).length = (parse_blocks t).length) := by
  refine ⟨main_run_eq h, ?_, ?_⟩
  · rw [main_run_eq h]
    by_cases hall : files.all (fun fe => fileValid m fe) = true
    · rw [if_pos hall]
      simp only [Except.ok.injEq, true_iff]
      intro fe hfe r hr
      have := List.all_eq_true.mp (List.all_eq_true.mp hall fe hfe) r hr
      exact isTrueVal_iff.mp this
    · rw [if_neg hall]
      constructor
      · intro h01
        exact absurd (Except.ok.inj h01) one_ne_zero
      · intro hv
        exfalso
        apply hall
        rw [List.all_eq_true]
        intro fe hfe
        rw [fileValid, List.all_eq_true]
        intro r hr
        exact isTrueVal_iff.mpr (hv fe hfe r hr)
  · intro fe _ t ht
    simp only [fileBlockResults, ht, blockResults, List.length_map,
      List.enumFrom_length]

/-- Witness for C5 at a run of one succeeding and one failing document. -/
theorem main_run_aggregates_witness :
    main_run false [okFile, failFile]
      = .ok (if [okFile, failFile].all (fun fe => fileValid false fe)
          then 0 else 1) :=
  (main_run_aggregates false [okFile, failFile]
    (by
      intro fe hfe
      rcases List.mem_cons.mp hfe with h0 | h1
      · exact ⟨"```mermaid\nA\n```\n", by rw [h0]; rfl⟩
      · rw [List.mem_singleton] at h1
        exact ⟨"```mermaid\nB\n```\n", by rw [h1]; rfl⟩)).1

/-- C8: a document whose text parses to zero diagram blocks passes
vacuously: `check_file` returns `True` with an empty list of render
invocations — the renderer is never invoked. -/
theorem check_file_no_blocks (m : Bool) (fe : FileEnv) (t : String)
    (hr : fe.readText = .ok t) (hb : parse_blocks t = []) :
    check_file m fe = .ok (true, []) := by
  simp only [check_file, hr, hb]
  rfl

/-- Witness for C8 at a markdown file with no fenced mermaid block. -/
theorem check_file_no_blocks_witness :
    check_file false noBlockFile = .ok (true, []) :=
  check_file_no_blocks false noBlockFile "# hi\n" rfl rfl

/-- C7: round-trip — for every readable document, the sequence of texts
written to the scratch source files equals the sequence of extracted
blocks, byte for byte (the write happens before any spawn, so this holds
whatever the renderer does). -/
theorem render_written_roundtrip (m : Bool) (fe : FileEnv) (t : String)
    (hr : fe.readText = .ok t) :
    (fileBlockResults m fe).map (fun r => r.written) = parse_blocks t := by
  simp only [fileBlockResults, hr, blockResults, List.map_map]
  have hgen : ∀ (n : Nat) (bs : List String),
      (List.enumFrom n bs).map ((fun r => r.written) ∘
        (fun ib => render_block ib.2 fe.path ib.1 m (fe.spawn ib.1)
          DEFAULT_TIMEOUT)) = bs := by
    intro n bs
    induction bs generalizing n with
    | nil => rfl
    | cons x xs ih =>
      simp only [List.enumFrom, List.map_cons, Function.comp_apply,
        render_block_written, ih]
  exact hgen 1 (parse_blocks t)

/-- Witness for C7 at a one-block document. -/
theorem render_written_roundtrip_witness :
    (fileBlockResults false okFile).map (fun r => r.written)
      = parse_blocks "```mermaid\nA\n```\n" :=
  render_written_roundtrip false okFile "```mermaid\nA\n```\n" rfl

/-- C6: with the default bound of 30 time units, an invocation whose
subprocess outlives the bound is forcibly killed and the block fails with
the timeout message; the outcome is distinct from every in-time invocation
(in particular from a nonzero-exit syntax failure), whose subprocess is
never killed. -/
theorem render_block_timeout (block path : String) (idx : Nat) (m : Bool)
    (p : ProcBehavior) (hp : DEFAULT_TIMEOUT < p.runtime) :
    render_block block path idx m (.started p) DEFAULT_TIMEOUT
      = { written := block, value := .ok false,
          messages := [timedOutMsg path idx], killed := true }
    ∧ DEFAULT_TIMEOUT = 30
    ∧ ∀ q : ProcBehavior, ¬ DEFAULT_TIMEOUT < q.runtime →
        render_block block path idx m (.started q) DEFAULT_TIMEOUT
          ≠ render_block block path idx m (.started p) DEFAULT_TIMEOUT := by
  refine ⟨by simp only [render_block, if_pos hp], rfl, ?_⟩
  intro q hq hcontra
  have hkill := congrArg RenderResult.killed hcontra
  simp only [render_block, if_pos hp, if_neg hq] at hkill
  by_cases hrc : (q.returncode == 0) = true <;> simp [hrc] at hkill

/-- Witness for C6 at a subprocess that takes 31 time units. -/
theorem render_block_timeout_witness :
    render_block "A" "a.md" 1 false
        (.started { runtime := 31, returncode := 0, stderr := "" })
        DEFAULT_TIMEOUT
      = { written := "A", value := .ok false,
          messages := [timedOutMsg "a.md" 1], killed := true } :=
  (render_block_timeout "A" "a.md" 1 false
    { runtime := 31, returncode := 0, stderr := "" } (by decide)).1

/-- C2 (amended): an absent renderer executable fails that invocation
immediately and distinctly — the coroutine returns `False` with the
tooling-missing install hint as its only message, without waiting on or
killing any subprocess — but this does not short-circuit the run: every
parsed block of every readable document still contributes its own render
result (one result per block), so later blocks are still attempted after a
tooling-missing failure, each reporting its own hint. -/
theorem tooling_missing_per_invocation (block path : String) (idx : Nat)
    (m : Bool) (t : ℚ) :
    render_block block path idx m .notFound t
      = { written := block, value := .ok false,
          messages := [toolingMissingMsg (if m then "mmdc" else "npx")],
          killed := false }
    ∧ ∀ (fe : FileEnv) (tx : String), fe.readText = .ok tx →
        (fileBlockResults m fe).length = (parse_blocks tx).length := by
  constructor
  · cases m <;> rfl
  · intro fe tx hr
    simp only [fileBlockResults, hr, blockResults, List.length_map,
      List.enumFrom_length]

/-- Witness for the amended C2 theorem. -/
theorem tooling_missing_per_invocation_witness :
    render_block "A" "m.md" 1 false .notFound DEFAULT_TIMEOUT
      = { written := "A", value := .ok false,
          messages := [toolingMissingMsg (if false then "mmdc" else "npx")],
          killed := false } :=
  (tooling_missing_per_invocation "A" "m.md" 1 false DEFAULT_TIMEOUT).1

/-- C2 counterexample: on a two-block document with the renderer entirely
absent, the second block is still attempted after the first block's
tooling-missing failure — `check_file` returns one tooling-missing result
per block, each with its own install hint, rather than stopping after the
first. -/
theorem tooling_missing_counterexample :
    check_file false missingFile
      = .ok (false,
        [{ written := "A", value := .ok false,
           messages := [toolingMissingMsg "npx"], killed := false },
         { written := "B", value := .ok false,
           messages := [toolingMissingMsg "npx"], killed := false }]) := rfl

/-- C9: an exception raised while rendering some block of a document is
absorbed by the gather (`return_exceptions=True`): it is not literally
`True`, so the document comes out invalid — `check_file` returns `False`
rather than raising — and the run still completes, with exit status 1. -/
theorem render_exception_absorbed (m : Bool) (files : List FileEnv)
    (fe : FileEnv) (hmem : fe ∈ files)
    (hreads : ∀ g ∈ files, ∃ t, g.readText = Except.ok t)
    (hexn : ∃ r ∈ fileBlockResults m fe, ∃ e, r.value = .error e) :
    check_file m fe = .ok (false, fileBlockResults m fe)
    ∧ main_run m files = .ok 1 := by
  obtain ⟨t, ht⟩ := hreads fe hmem
  have hvalid : fileValid m fe = false := by
    obtain ⟨r, hr, e, he⟩ := hexn
    rw [fileValid]
    cases hall : (fileBlockResults m fe).all (fun r => isTrueVal r.value)
      with
    | false => rfl
    | true =>
      exfalso
      have := List.all_eq_true.mp hall r hr
      rw [he] at this
      simp [isTrueVal] at this
  constructor
  · rw [check_file_read_ok ht, hvalid]
  · rw [main_run_eq hreads]
    have hall : files.all (fun fe => fileValid m fe) = false := by
      cases hq : files.all (fun fe => fileValid m fe) with
      | false => rfl
      | true =>
        exfalso
        have := List.all_eq_true.mp hq fe hmem
        rw [hvalid] at this
        exact Bool.false_ne_true this
    rw [hall]
    rfl

/-- Witness for C9: a run of a good document and one whose single block's
spawn raises. -/
theorem render_exception_absorbed_witness :
    check_file false exnFile = .ok (false, fileBlockResults false exnFile)
    ∧ main_run false [okFile, exnFile] = .ok 1 :=
  render_exception_absorbed false [okFile, exnFile] exnFile
    (by simp [List.mem_cons])
    (by
      intro fe hfe
      rcases List.mem_cons.mp hfe with h0 | h1
      · exact ⟨"```mermaid\nA\n```\n", by rw [h0]; rfl⟩
      · rw [List.mem_singleton] at h1
        exact ⟨"```mermaid\nE\n```\n", by rw [h1]; rfl⟩)
    ⟨{ written := "E", value := .error "boom", messages := [],
        killed := false },
      by
        rw [show fileBlockResults false exnFile
          = [{ written := "E", value := Except.error "boom", messages := [],
               killed := false }] from rfl]
        exact List.mem_singleton.mpr rfl,
      "boom", rfl⟩

theorem mapM_check_error {m : Bool} :
    ∀ (files : List FileEnv) (fe : FileEnv) (e : String), fe ∈ files →
      fe.readText = .error e →
      ∃ e2, files.mapM (fun g => (check_file m g).map Prod.fst)
        = .error e2 := by
  intro files
  induction files with
  | nil => intro fe e hmem _; simp at hmem
  | cons g gs ih =>
    intro fe e hmem hre
    rcases List.mem_cons.mp hmem with h0 | hmem2
    · refine ⟨e, ?_⟩
      rw [List.mapM_cons, show check_file m g = .error e by
        rw [← h0]; simp only [check_file, hre]]
      rfl
    · cases hg : g.readText with
      | error e3 =>
        refine ⟨e3, ?_⟩
        rw [List.mapM_cons, show check_file m g = .error e3 by
          simp only [check_file, hg]]
        rfl
      | ok t =>
        obtain ⟨e2, h2⟩ := ih fe e hmem2 hre
        refine ⟨e2, ?_⟩
        rw [List.mapM_cons, check_file_read_ok hg, h2]
        rfl

/-- C10: when some document of the run cannot be read, the read exception
propagates uncaught out of the gather in `main`: the run yields an error
rather than any exit status — in particular it does not return exit
status 1. -/
theorem read_error_propagates (m : Bool) (files : List FileEnv)
    (fe : FileEnv) (e : String) (hmem : fe ∈ files)
    (hre : fe.readText = .error e) :
    (∃ e2, main_run m files = .error e2)
    ∧ ∀ n, main_run m files ≠ .ok n := by
  obtain ⟨e2, h2⟩ := mapM_check_error files fe e hmem hre
  have hmain : main_run m files = .error e2 := by
    rw [main_run, h2]
    rfl
  refine ⟨⟨e2, hmain⟩, ?_⟩
  intro n hn
  rw [hmain] at hn
  exact absurd hn (by simp)

/-- Witness for C10 at a run containing an unreadable document. -/
theorem read_error_propagates_witness :
    (∃ e2, main_run false [okFile, badReadFile] = .error e2)
    ∧ ∀ n, main_run false [okFile, badReadFile] ≠ .ok n :=
  read_error_propagates false [okFile, badReadFile] badReadFile
    "FileNotFoundError" (by simp [List.mem_cons]) rfl

/-- C3 (amended): the CLI's single positional argument `paths` is declared
with `nargs="+"` and no default: any non-empty argument list parses to
exactly those paths, and the empty invocation is rejected with a
missing-argument usage error — there is no defaulting to a documentation
directory. -/
theorem parse_args_spec :
    (∃ e, parse_args [] = .error e)
    ∧ ∀ (a : String) (as : List String),
        parse_args (a :: as) = .ok (a :: as) :=
  ⟨⟨"the following arguments are required: paths", rfl⟩, fun _ _ => rfl⟩

/-- C3 counterexample: with no path arguments the parser produces a usage
error — the invocation is rejected, not defaulted to a documentation
directory. -/
theorem parse_args_empty_counterexample :
    parse_args [] = .error "the following arguments are required: paths" :=
  rfl

end ValidateMermaid
